import Mathlib

/-!
# Verification of the enpass-cli decryption core (src/src/main.rs)

Shallow embedding of the vault key-derivation and per-record decryption
pipeline of `enpass-cli`.  Bytes are `Nat` (meaningful values `< 256`),
byte strings are `List Nat`.  Machine-word arithmetic (SHA-256) is `Nat`
arithmetic taken `% 2^32` explicitly.

The repository's own code embedded here:
* `decrypt_enpass_data` — the chunked decrypt loop (main.rs:58-83),
* `derive` — the key-derivation block of `main` (main.rs:138-146),
* `runMain` — the record pipeline of `main` (main.rs:104-183).

The `rust-crypto` crate (AES, CBC block mode, PKCS padding, HMAC, SHA-256,
PBKDF2) is an external dependency whose source is not part of this
repository; its pieces are modelled from the spec, each marked
`Modelled from the spec:` in its doc comment.  The AES-256 block
permutation itself is kept abstract: every definition is parameterized by
a block function `List Nat → List Nat → List Nat` (key, block ↦ block).
-/

namespace Enpass

/-- Byte-wise XOR of two byte strings (truncating to the shorter). -/
def xorBytes (a b : List Nat) : List Nat :=
  List.zipWith (fun x y => x ^^^ y) a b

/-- Cut a list into chunks of `n` elements (last chunk possibly shorter),
with an explicit structural fuel so that the kernel can evaluate it.
`fuel = l.length` always suffices for `1 ≤ n`. -/
def chunksByF (n : Nat) : Nat → List Nat → List (List Nat)
  | 0, _ => []
  | _ + 1, [] => []
  | fuel + 1, x :: xs => (x :: xs).take n :: chunksByF n fuel ((x :: xs).drop n)

/-- Cut a byte string into chunks of `n` bytes (last chunk possibly shorter). -/
def chunksBy (n : Nat) (l : List Nat) : List (List Nat) :=
  chunksByF n l.length l

/-- Modelled from the spec: PKCS#7 padding — append `p = 16 - len mod 16`
copies of the byte `p` (always between 1 and 16). -/
def pkcsPad (bs : List Nat) : List Nat :=
  bs ++ List.replicate (16 - bs.length % 16) (16 - bs.length % 16)

/-- Modelled from the spec: PKCS#7 padding validation and removal — read the
last byte `p`, require `1 ≤ p ≤ 16`, `p ≤ len`, and the final `p` bytes all
equal to `p`; strip them.  `none` is the padding failure. -/
def pkcsUnpad (bs : List Nat) : Option (List Nat) :=
  match bs.getLast? with
  | none => none
  | some p =>
    if 1 ≤ p ∧ p ≤ 16 ∧ p ≤ bs.length ∧ (bs.drop (bs.length - p)).all (fun b => b == p)
    then some (bs.take (bs.length - p))
    else none

/-- Modelled from the spec: CBC decryption at block granularity — each
plaintext block is the block-decryption of the ciphertext block XORed with
the previous ciphertext block (the IV for the first). -/
def cbcDecBlocks (decB : List Nat → List Nat) (prev : List Nat) :
    List (List Nat) → List (List Nat)
  | [] => []
  | c :: cs => xorBytes (decB c) prev :: cbcDecBlocks decB c cs

/-- Modelled from the spec: CBC encryption at block granularity — each
ciphertext block is the block-encryption of the plaintext block XORed with
the previous ciphertext block (the IV for the first). -/
def cbcEncBlocks (encB : List Nat → List Nat) (prev : List Nat) :
    List (List Nat) → List (List Nat)
  | [] => []
  | p :: ps =>
    let c := encB (xorBytes p prev)
    c :: cbcEncBlocks encB c ps

/-- The error type of the `rust-crypto` crate's `SymmetricCipherError`:
`InvalidLength` (the spec's `InvalidCiphertextLength`) and `InvalidPadding`
(the spec's `PaddingError`). -/
inductive SymmetricCipherError
  | InvalidLength
  | InvalidPadding
deriving DecidableEq, Repr

/-- The `BufferResult` type of the `rust-crypto` buffer interface. -/
inductive BufferResult
  | BufferUnderflow
  | BufferOverflow
deriving DecidableEq, Repr

/-- The repository's `Error` enum (main.rs:48-56). `SqlCipherError` and
`SerdeJsonError` carry their payloads in Rust; the payloads are glue and
are dropped here. -/
inductive Error
  | CryptoError (e : SymmetricCipherError)
  | SqlCipherError
  | SerdeJsonError
  | UnsupportedEnpassVersion
deriving DecidableEq, Repr

/-- Modelled from the spec: one call to the `rust-crypto` CBC/PkcsPadding
decryptor with the whole input available, `eof = true`, and a 4096-byte
(256-block) write buffer, after `k` blocks have already been consumed and
emitted.  A payload of length zero or not a multiple of 16 is rejected
with `InvalidLength`.  While more than 256 blocks remain the call fills
the write buffer with 256 decrypted blocks and reports `BufferOverflow`;
otherwise it emits the remaining blocks with the PKCS padding stripped
from the last, reporting `BufferUnderflow`, or fails with
`InvalidPadding`. -/
def decCall (decB : List Nat → List Nat → List Nat) (key iv input : List Nat)
    (k : Nat) : Except SymmetricCipherError (BufferResult × List Nat) :=
  if input.length = 0 ∨ input.length % 16 ≠ 0 then .error .InvalidLength
  else
    let pts := cbcDecBlocks (decB key) iv (chunksBy 16 input)
    if 257 ≤ pts.length - k then
      .ok (.BufferOverflow, ((pts.drop k).take 256).flatten)
    else
      match pkcsUnpad (pts.drop k).flatten with
      | none => .error .InvalidPadding
      | some r => .ok (.BufferUnderflow, r)

/-- The decrypt loop of `decrypt_enpass_data` (main.rs:69-82): call the
decryptor, drain the write buffer into `final_result` (`acc`), stop with
the accumulated bytes on `BufferUnderflow`, propagate cipher errors, and
loop on `BufferOverflow`.  The Rust `loop` has no termination evidence, so
it is embedded with a step budget `fuel`; `none` means the budget ran out
(proved unreachable for `fuel ≥ input.length / 4096 + 2`). -/
def decLoop (decB : List Nat → List Nat → List Nat) (key iv input : List Nat) :
    Nat → Nat → List Nat → Option (Except Error (List Nat))
  | 0, _, _ => none
  | fuel + 1, k, acc =>
    match decCall decB key iv input k with
    | .error e => some (.error (.CryptoError e))
    | .ok (.BufferUnderflow, out) => some (.ok (acc ++ out))
    | .ok (.BufferOverflow, out) => decLoop decB key iv input fuel (k + 256) (acc ++ out)

/-- `decrypt_enpass_data` (main.rs:58-83): AES-256-CBC decryption with PKCS
padding of one record payload, run through the chunked loop.  The fuel
`input.length / 4096 + 2` is sufficient (see `decLoop_isSome`), so the
`getD` default is never taken. -/
def decrypt_enpass_data (decB : List Nat → List Nat → List Nat)
    (input_data key iv : List Nat) : Except Error (List Nat) :=
  (decLoop decB key iv input_data (input_data.length / 4096 + 2) 0 []).getD
    (.error (.CryptoError .InvalidLength))

/-- Modelled from the spec: the single-shot reference decryption —
validate the payload length, CBC-decrypt all blocks at once, strip the
PKCS padding.  This is the spec's `decrypt` contract (§4.2 steps 1-2),
the refinement target of the chunked loop. -/
def decryptSingle (decB : List Nat → List Nat → List Nat)
    (key iv input : List Nat) : Except Error (List Nat) :=
  if input.length = 0 ∨ input.length % 16 ≠ 0 then
    .error (.CryptoError .InvalidLength)
  else
    match pkcsUnpad (cbcDecBlocks (decB key) iv (chunksBy 16 input)).flatten with
    | none => .error (.CryptoError .InvalidPadding)
    | some r => .ok r

/-- Modelled from the spec: PKCS-padded CBC encryption of a payload —
the inverse operation used by the spec's round-trip property (§8). -/
def encryptPkcsCbc (encB : List Nat → List Nat → List Nat)
    (key iv msg : List Nat) : List Nat :=
  (cbcEncBlocks (encB key) iv (chunksBy 16 (pkcsPad msg))).flatten

/-! ## SHA-256, HMAC-SHA-256, PBKDF2

Modelled from the spec (the `rust-crypto` crate's `Sha256`, `Hmac` and
`pbkdf2` are external library code): the FIPS 180-4 / RFC 2104 / RFC 2898
algorithms, on `Nat` words reduced `% 2^32`. -/

/-- Addition of 32-bit words, `% 2^32`. -/
def add32 (a b : Nat) : Nat := (a + b) % 4294967296

/-- Right rotation of a 32-bit word by `n` bits. -/
def rotr32 (n x : Nat) : Nat := ((x >>> n) ||| (x <<< (32 - n))) % 4294967296

/-- SHA-256 big sigma 0. -/
def bsig0 (x : Nat) : Nat := rotr32 2 x ^^^ rotr32 13 x ^^^ rotr32 22 x

/-- SHA-256 big sigma 1. -/
def bsig1 (x : Nat) : Nat := rotr32 6 x ^^^ rotr32 11 x ^^^ rotr32 25 x

/-- SHA-256 small sigma 0. -/
def ssig0 (x : Nat) : Nat := rotr32 7 x ^^^ rotr32 18 x ^^^ (x >>> 3)

/-- SHA-256 small sigma 1. -/
def ssig1 (x : Nat) : Nat := rotr32 17 x ^^^ rotr32 19 x ^^^ (x >>> 10)

/-- SHA-256 choice function. -/
def shaCh (e f g : Nat) : Nat := (e &&& f) ^^^ ((e ^^^ 4294967295) &&& g)

/-- SHA-256 majority function. -/
def shaMaj (a b c : Nat) : Nat := (a &&& b) ^^^ (a &&& c) ^^^ (b &&& c)

/-- The 64 SHA-256 round constants (FIPS 180-4, here in decimal). -/
def shaK : List Nat :=
  [1116352408, 1899447441, 3049323471, 3921009573, 961987163,
   1508970993, 2453635748, 2870763221, 3624381080, 310598401,
   607225278, 1426881987, 1925078388, 2162078206, 2614888103,
   3248222580, 3835390401, 4022224774, 264347078, 604807628,
   770255983, 1249150122, 1555081692, 1996064986, 2554220882,
   2821834349, 2952996808, 3210313671, 3336571891, 3584528711,
   113926993, 338241895, 666307205, 773529912, 1294757372,
   1396182291, 1695183700, 1986661051, 2177026350, 2456956037,
   2730485921, 2820302411, 3259730800, 3345764771, 3516065817,
   3600352804, 4094571909, 275423344, 430227734, 506948616,
   659060556, 883997877, 958139571, 1322822218, 1537002063,
   1747873779, 1955562222, 2024104815, 2227730452, 2361852424,
   2428436474, 2756734187, 3204031479, 3329325298]

/-- The eight SHA-256 working variables. -/
structure Sha256St where
  a : Nat
  b : Nat
  c : Nat
  d : Nat
  e : Nat
  f : Nat
  g : Nat
  hh : Nat
deriving DecidableEq, Repr

/-- The SHA-256 initial hash value (FIPS 180-4, here in decimal). -/
def shaInit : Sha256St :=
  ⟨1779033703, 3144134277, 1013904242, 2773480762,
   1359893119, 2600822924, 528734635, 1541459225⟩

/-- One SHA-256 round, with the round constant and schedule word already
added together in `kw`. -/
def shaRound (s : Sha256St) (kw : Nat) : Sha256St :=
  let t1 := add32 s.hh (add32 (bsig1 s.e) (add32 (shaCh s.e s.f s.g) kw))
  let t2 := add32 (bsig0 s.a) (shaMaj s.a s.b s.c)
  ⟨add32 t1 t2, s.a, s.b, s.c, add32 s.d t1, s.e, s.f, s.g⟩

/-- Extend a message-schedule word list by `n` further words
(`w[i] = σ1 w[i-2] + w[i-7] + σ0 w[i-15] + w[i-16]`). -/
def shaExtend (ws : List Nat) : Nat → List Nat
  | 0 => ws
  | n + 1 =>
    shaExtend
      (ws ++ [add32 (add32 (ssig1 (ws.getD (ws.length - 2) 0)) (ws.getD (ws.length - 7) 0))
                (add32 (ssig0 (ws.getD (ws.length - 15) 0)) (ws.getD (ws.length - 16) 0))])
      n

/-- A 32-bit word from four big-endian bytes. -/
def word4 (l : List Nat) : Nat :=
  l.getD 0 0 * 16777216 + l.getD 1 0 * 65536 + l.getD 2 0 * 256 + l.getD 3 0

/-- Four big-endian bytes of a 32-bit word. -/
def be4 (w : Nat) : List Nat :=
  [w / 16777216 % 256, w / 65536 % 256, w / 256 % 256, w % 256]

/-- Eight big-endian bytes of a 64-bit length field. -/
def be8 (w : Nat) : List Nat :=
  [w / 72057594037927936 % 256, w / 281474976710656 % 256, w / 1099511627776 % 256,
   w / 4294967296 % 256, w / 16777216 % 256, w / 65536 % 256, w / 256 % 256, w % 256]

/-- Compress one 64-byte block (given as 16 words) into the hash state. -/
def shaCompress (s : Sha256St) (ws : List Nat) : Sha256St :=
  let t := (List.zipWith add32 shaK (shaExtend ws 48)).foldl shaRound s
  ⟨add32 s.a t.a, add32 s.b t.b, add32 s.c t.c, add32 s.d t.d,
   add32 s.e t.e, add32 s.f t.f, add32 s.g t.g, add32 s.hh t.hh⟩

/-- SHA-256 message padding: `0x80`, zeros to 56 mod 64, then the bit
length as a 64-bit big-endian integer. -/
def shaPad (msg : List Nat) : List Nat :=
  msg ++ [128] ++ List.replicate ((64 - (msg.length + 9) % 64) % 64) 0 ++ be8 (8 * msg.length)

/-- SHA-256 of a byte string, as 32 bytes. -/
def sha256 (msg : List Nat) : List Nat :=
  let final := (chunksBy 64 (shaPad msg)).foldl
    (fun s b => shaCompress s ((chunksBy 4 b).map word4)) shaInit
  be4 final.a ++ be4 final.b ++ be4 final.c ++ be4 final.d ++
    be4 final.e ++ be4 final.f ++ be4 final.g ++ be4 final.hh

/-- HMAC-SHA-256 (RFC 2104): key hashed if longer than the 64-byte block,
zero-padded to 64 bytes, inner pad `0x36`, outer pad `0x5c`. -/
def hmacSha256 (key msg : List Nat) : List Nat :=
  let k0 := if 64 < key.length then sha256 key else key
  let kp := k0 ++ List.replicate (64 - k0.length) 0
  sha256 (kp.map (fun b => b ^^^ 92) ++ sha256 (kp.map (fun b => b ^^^ 54) ++ msg))

/-- PBKDF2 inner accumulation: after `U₁`, XOR in `n` further PRF
iterates (`Uⱼ = PRF(pw, Uⱼ₋₁)`). -/
def pbkdf2Go (prf : List Nat → List Nat → List Nat) (pw : List Nat) :
    Nat → List Nat → List Nat → List Nat
  | 0, _, acc => acc
  | n + 1, u, acc =>
    let u2 := prf pw u
    pbkdf2Go prf pw n u2 (xorBytes acc u2)

/-- One PBKDF2 output block `F(pw, salt, c, i)` (RFC 2898):
`U₁ = PRF(pw, salt ‖ INT(i))`, XOR of `U₁ … U_c`. -/
def pbkdf2F (prf : List Nat → List Nat → List Nat) (pw salt : List Nat)
    (c i : Nat) : List Nat :=
  let u1 := prf pw (salt ++ be4 i)
  pbkdf2Go prf pw (c - 1) u1 u1

/-- PBKDF2 with an HMAC-SHA-256-sized (32-byte) PRF output, producing
`dkLen` bytes. -/
def pbkdf2 (prf : List Nat → List Nat → List Nat) (pw salt : List Nat)
    (c dkLen : Nat) : List Nat :=
  (((List.range ((dkLen + 31) / 32)).map (fun i => pbkdf2F prf pw salt c (i + 1))).flatten).take dkLen

/-! ## Key derivation and the record pipeline of `main` -/

/-- Failure mode of the key-derivation block: Rust's bounds-checked slice
`identity.info[16..32]` / `identity.info[32..48]` (main.rs:138-139) panics
with an index-out-of-range error when `info` is too short — the access is
checked, so no memory past the blob is ever read, but no error value is
returned either. -/
inductive DerivePanic
  | slicePanic
deriving DecidableEq, Repr

/-- The key-derivation block of `main` (main.rs:138-146): IV is
`info[16..32]` taken directly, salt is `info[32..48]`, and the 32-byte key
is PBKDF2 with the HMAC-SHA-256 PRF keyed by the raw bytes of the
identity's `hash` string, over that salt, with 2 iterations.  Slicing a
too-short `info` panics. -/
def derive (hash info : List Nat) : Except DerivePanic (List Nat × List Nat) :=
  if 32 ≤ info.length then
    if 48 ≤ info.length then
      let iv := (info.drop 16).take 16
      let salt := (info.drop 32).take 16
      let key := pbkdf2 hmacSha256 hash salt 2 32
      .ok (key, iv)
    else .error .slicePanic
  else .error .slicePanic

/-- Per-record processing inside `stmt.query_map` (main.rs:154-170):
decrypt the record's `data` bytes, then parse them (`serde_json`,
modelled as an abstract `parse` returning `none` on malformed input). -/
def processRecord {J : Type} (decB : List Nat → List Nat → List Nat)
    (parse : List Nat → Option J) (key iv data : List Nat) : Except Error J :=
  match decrypt_enpass_data decB data key iv with
  | .error e => .error e
  | .ok bytes =>
    match parse bytes with
    | none => .error .SerdeJsonError
    | some j => .ok j

/-- Outcome of one run of `main`'s pipeline: normal output, an `Error`
return, or a Rust panic (from the identity slicing). -/
inductive RunOutcome (J : Type)
  | ok (cards : List J)
  | err (e : Error)
  | panicked
deriving DecidableEq, Repr

/-- The pipeline of `main` (main.rs:104-183), with the SQL glue abstracted
to its data: the `-6` flag check returns `UnsupportedEnpassVersion` before
the identity row is touched (main.rs:115-123); then the key/IV are derived
(main.rs:125-147); then each record is decrypted and parsed, and
`.filter_map(|res| res.ok())` (main.rs:171-172) keeps only the successes —
failed records are dropped with no signal. -/
def runMain {J : Type} (decB : List Nat → List Nat → List Nat)
    (parse : List Nat → Option J) (version_6 : Bool) (hash info : List Nat)
    (records : List (List Nat)) : RunOutcome J :=
  if version_6 then .err .UnsupportedEnpassVersion
  else
    match derive hash info with
    | .error _ => .panicked
    | .ok (key, iv) =>
      .ok (records.filterMap (fun d => (processRecord decB parse key iv d).toOption))

/-! ## Chunking lemmas -/

theorem chunksByF_nil (n fuel : Nat) : chunksByF n fuel [] = [] := by
  cases fuel <;> rfl

theorem chunksByF_congr (n : Nat) (hn : 1 ≤ n) :
    ∀ fuel fuel' (l : List Nat), l.length ≤ fuel → l.length ≤ fuel' →
      chunksByF n fuel l = chunksByF n fuel' l := by
  intro fuel
  induction fuel with
  | zero =>
    intro fuel' l hl _
    have : l = [] := List.eq_nil_of_length_eq_zero (Nat.le_zero.mp hl)
    subst this
    rw [chunksByF_nil, chunksByF_nil]
  | succ f ih =>
    intro fuel' l hl hl'
    cases l with
    | nil => rw [chunksByF_nil, chunksByF_nil]
    | cons x xs =>
      cases fuel' with
      | zero => simp at hl'
      | succ f' =>
        show _ :: chunksByF n f ((x :: xs).drop n) = _ :: chunksByF n f' ((x :: xs).drop n)
        have hd : ((x :: xs).drop n).length ≤ f := by
          simp only [List.length_drop, List.length_cons]
          simp only [List.length_cons] at hl
          omega
        have hd' : ((x :: xs).drop n).length ≤ f' := by
          simp only [List.length_drop, List.length_cons]
          simp only [List.length_cons] at hl'
          omega
        rw [ih f' _ hd hd']

theorem chunksBy_nil (n : Nat) : chunksBy n [] = [] := rfl

theorem chunksBy_cons (n : Nat) (hn : 1 ≤ n) (x : Nat) (xs : List Nat) :
    chunksBy n (x :: xs) = (x :: xs).take n :: chunksBy n ((x :: xs).drop n) := by
  show chunksByF n (xs.length + 1) (x :: xs) = _
  show _ :: chunksByF n xs.length ((x :: xs).drop n) = _
  rw [chunksByF_congr n hn xs.length ((x :: xs).drop n).length ((x :: xs).drop n)
    (by simp only [List.length_drop, List.length_cons]; omega) (Nat.le_refl _)]
  rfl

theorem chunksBy_flatten_aux (n : Nat) (hn : 1 ≤ n) :
    ∀ (N : Nat) (l : List Nat), l.length ≤ N → (chunksBy n l).flatten = l := by
  intro N
  induction N with
  | zero =>
    intro l hl
    have : l = [] := List.eq_nil_of_length_eq_zero (Nat.le_zero.mp hl)
    subst this
    rfl
  | succ N ih =>
    intro l hl
    cases l with
    | nil => rfl
    | cons x xs =>
      rw [chunksBy_cons n hn, List.flatten_cons,
        ih _ (by simp only [List.length_drop, List.length_cons]; simp only [List.length_cons] at hl; omega),
        List.take_append_drop]

theorem chunksBy_flatten (n : Nat) (hn : 1 ≤ n) (l : List Nat) :
    (chunksBy n l).flatten = l :=
  chunksBy_flatten_aux n hn l.length l (Nat.le_refl _)

theorem chunksBy_length16_aux :
    ∀ (N : Nat) (l : List Nat), l.length ≤ N →
      (chunksBy 16 l).length = (l.length + 15) / 16 := by
  intro N
  induction N with
  | zero =>
    intro l hl
    have : l = [] := List.eq_nil_of_length_eq_zero (Nat.le_zero.mp hl)
    subst this
    rfl
  | succ N ih =>
    intro l hl
    cases l with
    | nil => rfl
    | cons x xs =>
      rw [chunksBy_cons 16 (by omega), List.length_cons,
        ih _ (by simp only [List.length_drop, List.length_cons]; simp only [List.length_cons] at hl; omega)]
      simp only [List.length_drop, List.length_cons]
      omega

theorem chunksBy_length16 (l : List Nat) :
    (chunksBy 16 l).length = (l.length + 15) / 16 :=
  chunksBy_length16_aux l.length l (Nat.le_refl _)

theorem chunksBy_mem_length_aux :
    ∀ (N : Nat) (l : List Nat), l.length ≤ N → l.length % 16 = 0 →
      ∀ b ∈ chunksBy 16 l, b.length = 16 := by
  intro N
  induction N with
  | zero =>
    intro l hl _
    have : l = [] := List.eq_nil_of_length_eq_zero (Nat.le_zero.mp hl)
    subst this
    simp [chunksBy_nil]
  | succ N ih =>
    intro l hl h
    cases l with
    | nil => simp [chunksBy_nil]
    | cons x xs =>
      rw [chunksBy_cons 16 (by omega)]
      intro b hb
      rcases List.mem_cons.mp hb with hb | hb
      · subst hb
        simp only [List.length_take, List.length_cons]
        simp only [List.length_cons] at h
        omega
      · exact ih _
          (by simp only [List.length_drop, List.length_cons]; simp only [List.length_cons] at hl; omega)
          (by simp only [List.length_drop, List.length_cons]; simp only [List.length_cons] at h; omega)
          b hb

theorem chunksBy_mem_length (l : List Nat) (h : l.length % 16 = 0) :
    ∀ b ∈ chunksBy 16 l, b.length = 16 :=
  chunksBy_mem_length_aux l.length l (Nat.le_refl _) h

theorem chunksBy_of_blocks (bl : List (List Nat)) (h : ∀ b ∈ bl, b.length = 16) :
    chunksBy 16 bl.flatten = bl := by
  induction bl with
  | nil => rfl
  | cons b bs ih =>
    have hb : b.length = 16 := h b (List.mem_cons_self _ _)
    cases b with
    | nil => simp at hb
    | cons y ys =>
      rw [List.flatten_cons, List.cons_append, chunksBy_cons 16 (by omega), ← List.cons_append]
      have h1 : ((y :: ys) ++ bs.flatten).take 16 = y :: ys := by
        conv_lhs => rw [← hb]
        exact List.take_left _ _
      have h2 : ((y :: ys) ++ bs.flatten).drop 16 = bs.flatten := by
        conv_lhs => rw [← hb]
        exact List.drop_left _ _
      rw [h1, h2, ih (fun c hc => h c (List.mem_cons_of_mem _ hc))]

/-! ## XOR and PKCS padding lemmas -/

theorem xorBytes_length (a b : List Nat) :
    (xorBytes a b).length = min a.length b.length := by
  simp [xorBytes, List.length_zipWith]

theorem xorBytes_cancel :
    ∀ (a b : List Nat), a.length = b.length → xorBytes (xorBytes a b) b = a := by
  intro a
  induction a with
  | nil => intro b _; rfl
  | cons x xs ih =>
    intro b hb
    cases b with
    | nil => simp at hb
    | cons y ys =>
      show (x ^^^ y ^^^ y) :: xorBytes (xorBytes xs ys) ys = x :: xs
      rw [Nat.xor_cancel_right, ih ys (by simpa using hb)]

theorem pkcsPad_length (m : List Nat) :
    (pkcsPad m).length = m.length + (16 - m.length % 16) := by
  simp [pkcsPad]

theorem pkcsPad_mod (m : List Nat) : (pkcsPad m).length % 16 = 0 := by
  rw [pkcsPad_length]
  have : m.length % 16 < 16 := Nat.mod_lt _ (by omega)
  omega

theorem pkcsPad_pos (m : List Nat) : (pkcsPad m).length ≠ 0 := by
  rw [pkcsPad_length]
  have : m.length % 16 < 16 := Nat.mod_lt _ (by omega)
  omega

theorem pkcsUnpad_pad (m : List Nat) : pkcsUnpad (pkcsPad m) = some m := by
  have hp : 1 ≤ 16 - m.length % 16 ∧ 16 - m.length % 16 ≤ 16 := by
    have : m.length % 16 < 16 := Nat.mod_lt _ (by omega)
    omega
  set p := 16 - m.length % 16 with hpdef
  have hlast : (pkcsPad m).getLast? = some p := by
    rw [pkcsPad, List.getLast?_append, List.getLast?_replicate, if_neg (show ¬(p = 0) by omega)]
    rfl
  have hlen : (pkcsPad m).length = m.length + p := pkcsPad_length m
  rw [pkcsUnpad]
  simp only [hlast]
  have hsub : (pkcsPad m).length - p = m.length := by omega
  have hdrop : (pkcsPad m).drop ((pkcsPad m).length - p) = List.replicate p p := by
    rw [hsub, pkcsPad]
    conv_lhs => rw [show m.length = m.length from rfl]
    exact List.drop_left _ _
  have htake : (pkcsPad m).take ((pkcsPad m).length - p) = m := by
    rw [hsub, pkcsPad]
    exact List.take_left _ _
  rw [if_pos, htake]
  refine ⟨hp.1, hp.2, by omega, ?_⟩
  rw [hdrop, List.all_eq_true]
  intro x hx
  rw [List.eq_of_mem_replicate hx]
  exact beq_self_eq_true p

theorem pkcsUnpad_append (A B : List Nat) (hB : 16 ≤ B.length) :
    pkcsUnpad (A ++ B) = (pkcsUnpad B).map (fun r => A ++ r) := by
  have hBne : B ≠ [] := by
    intro h
    subst h
    simp at hB
  cases hgl : B.getLast? with
  | none =>
    exact absurd (List.getLast?_eq_none_iff.mp hgl) hBne
  | some p =>
    have hglA : (A ++ B).getLast? = some p := by
      rw [List.getLast?_append, hgl]
      rfl
    rw [pkcsUnpad, pkcsUnpad]
    simp only [hgl, hglA]
    by_cases hcond : 1 ≤ p ∧ p ≤ 16 ∧ p ≤ B.length ∧ (B.drop (B.length - p)).all (fun b => b == p)
    · obtain ⟨h1, h2, h3, h4⟩ := hcond
      have hdrop : (A ++ B).drop ((A ++ B).length - p) = B.drop (B.length - p) := by
        rw [List.length_append, show A.length + B.length - p = A.length + (B.length - p) by omega,
          List.drop_append]
      have htake : (A ++ B).take ((A ++ B).length - p) = A ++ B.take (B.length - p) := by
        rw [List.length_append, show A.length + B.length - p = A.length + (B.length - p) by omega,
          List.take_append]
      rw [if_pos, if_pos ⟨h1, h2, h3, h4⟩, htake]
      · rfl
      · refine ⟨h1, h2, by simp only [List.length_append]; omega, by rw [hdrop]; exact h4⟩
    · rw [if_neg, if_neg hcond]
      · rfl
      · intro ⟨h1, h2, h3, h4⟩
        apply hcond
        have hdrop : (A ++ B).drop ((A ++ B).length - p) = B.drop (B.length - p) := by
          rw [List.length_append, show A.length + B.length - p = A.length + (B.length - p) by omega,
            List.drop_append]
        refine ⟨h1, h2, by omega, by rw [← hdrop]; exact h4⟩

/-! ## CBC lemmas -/

theorem cbcDecBlocks_length (decB : List Nat → List Nat) (prev : List Nat)
    (cs : List (List Nat)) : (cbcDecBlocks decB prev cs).length = cs.length := by
  induction cs generalizing prev with
  | nil => rfl
  | cons c cs ih => simp [cbcDecBlocks, ih]

theorem cbcDecBlocks_mem_length (decB : List Nat → List Nat)
    (hdec : ∀ c, c.length = 16 → (decB c).length = 16) :
    ∀ (cs : List (List Nat)) (prev : List Nat), prev.length = 16 →
      (∀ c ∈ cs, c.length = 16) →
      ∀ b ∈ cbcDecBlocks decB prev cs, b.length = 16 := by
  intro cs
  induction cs with
  | nil => intro prev _ _ b hb; simp [cbcDecBlocks] at hb
  | cons c cs ih =>
    intro prev hprev hcs b hb
    rcases List.mem_cons.mp hb with hb | hb
    · subst hb
      rw [xorBytes_length, hdec c (hcs c (List.mem_cons_self _ _)), hprev]
      omega
    · exact ih c (hcs c (List.mem_cons_self _ _)) (fun d hd => hcs d (List.mem_cons_of_mem _ hd)) b hb

theorem cbcDec_cbcEnc (encB decB : List Nat → List Nat)
    (henc : ∀ b, b.length = 16 → (encB b).length = 16)
    (hinv : ∀ b, b.length = 16 → decB (encB b) = b) :
    ∀ (ps : List (List Nat)) (prev : List Nat), prev.length = 16 →
      (∀ p ∈ ps, p.length = 16) →
      cbcDecBlocks decB prev (cbcEncBlocks encB prev ps) = ps := by
  intro ps
  induction ps with
  | nil => intro prev _ _; rfl
  | cons p ps ih =>
    intro prev hprev hps
    have hp : p.length = 16 := hps p (List.mem_cons_self _ _)
    have hxl : (xorBytes p prev).length = 16 := by rw [xorBytes_length, hp, hprev]; rfl
    show xorBytes (decB (encB (xorBytes p prev))) prev ::
      cbcDecBlocks decB (encB (xorBytes p prev)) (cbcEncBlocks encB (encB (xorBytes p prev)) ps) = p :: ps
    rw [hinv _ hxl, xorBytes_cancel p prev (by rw [hp, hprev]),
      ih (encB (xorBytes p prev)) (henc _ hxl) (fun q hq => hps q (List.mem_cons_of_mem _ hq))]

/-! ## The chunked loop against the single-shot decryption -/

theorem flatten_length_blocks (bl : List (List Nat)) (h : ∀ b ∈ bl, b.length = 16) :
    bl.flatten.length = 16 * bl.length := by
  induction bl with
  | nil => rfl
  | cons b bs ih =>
    rw [List.flatten_cons, List.length_append, h b (List.mem_cons_self _ _),
      ih (fun c hc => h c (List.mem_cons_of_mem _ hc)), List.length_cons]
    omega

theorem decLoop_invalid (decB : List Nat → List Nat → List Nat) (key iv input : List Nat)
    (hval : input.length = 0 ∨ input.length % 16 ≠ 0) (fuel k : Nat) (acc : List Nat) :
    decLoop decB key iv input (fuel + 1) k acc =
      some (.error (.CryptoError .InvalidLength)) := by
  simp only [decLoop, decCall, if_pos hval]

theorem decLoop_eq (decB : List Nat → List Nat → List Nat) (key iv input : List Nat)
    (hval : ¬(input.length = 0 ∨ input.length % 16 ≠ 0))
    (hiv : iv.length = 16)
    (hdec : ∀ c, c.length = 16 → (decB key c).length = 16) :
    ∀ (fuel k : Nat) (acc : List Nat),
      ((cbcDecBlocks (decB key) iv (chunksBy 16 input)).length - k) / 256 + 1 ≤ fuel →
      decLoop decB key iv input fuel k acc =
        some (match pkcsUnpad ((cbcDecBlocks (decB key) iv (chunksBy 16 input)).drop k).flatten with
              | none => Except.error (.CryptoError .InvalidPadding)
              | some r => Except.ok (acc ++ r)) := by
  have hmod : input.length % 16 = 0 := by
    by_contra hc
    exact hval (Or.inr hc)
  have hblocks : ∀ b ∈ cbcDecBlocks (decB key) iv (chunksBy 16 input), b.length = 16 :=
    cbcDecBlocks_mem_length (decB key) hdec (chunksBy 16 input) iv hiv
      (chunksBy_mem_length input hmod)
  intro fuel
  induction fuel with
  | zero => intro k acc h; omega
  | succ fuel ih =>
    intro k acc hfuel
    set pts := cbcDecBlocks (decB key) iv (chunksBy 16 input) with hpts
    by_cases hov : 257 ≤ pts.length - k
    · have hcall : decCall decB key iv input k =
          .ok (.BufferOverflow, ((pts.drop k).take 256).flatten) := by
        rw [decCall, if_neg hval]
        simp only [← hpts, if_pos hov]
      rw [decLoop]
      simp only [hcall]
      rw [ih (k + 256) (acc ++ ((pts.drop k).take 256).flatten) (by omega)]
      have hsplit : (pts.drop k).flatten =
          ((pts.drop k).take 256).flatten ++ (pts.drop (k + 256)).flatten := by
        rw [← List.flatten_append]
        congr 1
        rw [← List.drop_drop]
        exact (List.take_append_drop 256 (pts.drop k)).symm
      have hBlen : 16 ≤ (pts.drop (k + 256)).flatten.length := by
        rw [flatten_length_blocks _ (fun b hb => hblocks b (List.mem_of_mem_drop hb))]
        rw [List.length_drop]
        omega
      rw [hsplit, pkcsUnpad_append _ _ hBlen]
      cases hup : pkcsUnpad (pts.drop (k + 256)).flatten with
      | none => rfl
      | some r => simp [List.append_assoc]
    · have hcall : decCall decB key iv input k =
          match pkcsUnpad (pts.drop k).flatten with
          | none => .error .InvalidPadding
          | some r => .ok (.BufferUnderflow, r) := by
        rw [decCall, if_neg hval]
        simp only [← hpts, if_neg hov]
      rw [decLoop]
      simp only [hcall]
      cases hup : pkcsUnpad (pts.drop k).flatten with
      | none => rfl
      | some r => rfl

theorem decLoop_isSome (decB : List Nat → List Nat → List Nat) (key iv input : List Nat) :
    ∀ (fuel k : Nat) (acc : List Nat),
      ((chunksBy 16 input).length - k) / 256 + 1 ≤ fuel →
      (decLoop decB key iv input fuel k acc).isSome := by
  intro fuel
  induction fuel with
  | zero => intro k acc h; omega
  | succ fuel ih =>
    intro k acc hfuel
    by_cases hval : input.length = 0 ∨ input.length % 16 ≠ 0
    · rw [decLoop_invalid decB key iv input hval]
      rfl
    · set pts := cbcDecBlocks (decB key) iv (chunksBy 16 input) with hpts
      have hlen : pts.length = (chunksBy 16 input).length := cbcDecBlocks_length _ _ _
      by_cases hov : 257 ≤ pts.length - k
      · have hcall : decCall decB key iv input k =
            .ok (.BufferOverflow, ((pts.drop k).take 256).flatten) := by
          rw [decCall, if_neg hval]
          simp only [← hpts, if_pos hov]
        rw [decLoop]
        simp only [hcall]
        exact ih (k + 256) _ (by omega)
      · have hcall : decCall decB key iv input k =
            match pkcsUnpad (pts.drop k).flatten with
            | none => .error .InvalidPadding
            | some r => .ok (.BufferUnderflow, r) := by
          rw [decCall, if_neg hval]
          simp only [← hpts, if_neg hov]
        rw [decLoop]
        simp only [hcall]
        cases hup : pkcsUnpad (pts.drop k).flatten with
        | none => rfl
        | some r => rfl

theorem decrypt_eq_single (decB : List Nat → List Nat → List Nat) (input key iv : List Nat)
    (hiv : iv.length = 16)
    (hdec : ∀ c, c.length = 16 → (decB key c).length = 16) :
    decrypt_enpass_data decB input key iv = decryptSingle decB key iv input := by
  by_cases hval : input.length = 0 ∨ input.length % 16 ≠ 0
  · rw [decrypt_enpass_data, decryptSingle, if_pos hval,
      show input.length / 4096 + 2 = (input.length / 4096 + 1) + 1 from rfl,
      decLoop_invalid decB key iv input hval]
    rfl
  · have hmod : input.length % 16 = 0 := by
      by_contra hc
      exact hval (Or.inr hc)
    have hbound : ((cbcDecBlocks (decB key) iv (chunksBy 16 input)).length - 0) / 256 + 1 ≤
        input.length / 4096 + 2 := by
      rw [cbcDecBlocks_length, chunksBy_length16, Nat.sub_zero]
      have h1 : (input.length + 15) / 16 = input.length / 16 := by omega
      rw [h1, Nat.div_div_eq_div_mul]
      omega
    rw [decrypt_enpass_data, decryptSingle, if_neg hval,
      decLoop_eq decB key iv input hval hiv hdec _ 0 [] hbound, List.drop_zero]
    cases hup : pkcsUnpad (cbcDecBlocks (decB key) iv (chunksBy 16 input)).flatten with
    | none => rfl
    | some r => simp [Option.getD]

/-! ## Round-trip helpers -/

theorem cbcEncBlocks_mem_length (encB : List Nat → List Nat)
    (henc : ∀ b, b.length = 16 → (encB b).length = 16) :
    ∀ (ps : List (List Nat)) (prev : List Nat), prev.length = 16 →
      (∀ p ∈ ps, p.length = 16) →
      ∀ b ∈ cbcEncBlocks encB prev ps, b.length = 16 := by
  intro ps
  induction ps with
  | nil => intro prev _ _ b hb; simp [cbcEncBlocks] at hb
  | cons p ps ih =>
    intro prev hprev hps b hb
    have hp : p.length = 16 := hps p (List.mem_cons_self _ _)
    have hxl : (xorBytes p prev).length = 16 := by
      rw [xorBytes_length, hp, hprev]
      omega
    rcases List.mem_cons.mp hb with hb | hb
    · subst hb
      exact henc _ hxl
    · exact ih (encB (xorBytes p prev)) (henc _ hxl)
        (fun q hq => hps q (List.mem_cons_of_mem _ hq)) b hb

theorem cbcEncBlocks_length (encB : List Nat → List Nat) :
    ∀ (ps : List (List Nat)) (prev : List Nat),
      (cbcEncBlocks encB prev ps).length = ps.length := by
  intro ps
  induction ps with
  | nil => intro prev; rfl
  | cons p ps ih => intro prev; simp [cbcEncBlocks, ih]

theorem decryptSingle_encrypt (encB decB : List Nat → List Nat → List Nat)
    (key iv msg : List Nat) (hiv : iv.length = 16)
    (henc : ∀ b, b.length = 16 → (encB key b).length = 16)
    (hinv : ∀ b, b.length = 16 → decB key (encB key b) = b) :
    decryptSingle decB key iv (encryptPkcsCbc encB key iv msg) = .ok msg := by
  have hpadblocks : ∀ b ∈ chunksBy 16 (pkcsPad msg), b.length = 16 :=
    chunksBy_mem_length _ (pkcsPad_mod msg)
  have hencblocks : ∀ b ∈ cbcEncBlocks (encB key) iv (chunksBy 16 (pkcsPad msg)), b.length = 16 :=
    cbcEncBlocks_mem_length (encB key) henc _ iv hiv hpadblocks
  have hctlen : (encryptPkcsCbc encB key iv msg).length =
      16 * (cbcEncBlocks (encB key) iv (chunksBy 16 (pkcsPad msg))).length :=
    flatten_length_blocks _ hencblocks
  have hcount : (chunksBy 16 (pkcsPad msg)).length = (pkcsPad msg).length / 16 := by
    rw [chunksBy_length16]
    have := pkcsPad_mod msg
    omega
  have henclen : (cbcEncBlocks (encB key) iv (chunksBy 16 (pkcsPad msg))).length =
      (chunksBy 16 (pkcsPad msg)).length :=
    cbcEncBlocks_length (encB key) _ iv
  have hpos : (pkcsPad msg).length / 16 ≠ 0 := by
    have h1 := pkcsPad_pos msg
    have h2 := pkcsPad_mod msg
    omega
  have hval : ¬((encryptPkcsCbc encB key iv msg).length = 0 ∨
      (encryptPkcsCbc encB key iv msg).length % 16 ≠ 0) := by
    rw [hctlen, henclen, hcount]
    omega
  rw [decryptSingle, if_neg hval]
  have hct : chunksBy 16 (encryptPkcsCbc encB key iv msg) =
      cbcEncBlocks (encB key) iv (chunksBy 16 (pkcsPad msg)) :=
    chunksBy_of_blocks _ hencblocks
  rw [hct, cbcDec_cbcEnc (encB key) (decB key) henc hinv _ iv hiv hpadblocks,
    chunksBy_flatten 16 (by omega), pkcsUnpad_pad]

/-! ## Key-derivation helpers -/

theorem sha256_length (msg : List Nat) : (sha256 msg).length = 32 := by
  rw [sha256]
  simp [be4, List.length_append]

theorem hmacSha256_length (key msg : List Nat) : (hmacSha256 key msg).length = 32 :=
  sha256_length _

theorem be4_one : be4 1 = [0, 0, 0, 1] := rfl

theorem pbkdf2_hmac_two (pw salt : List Nat) :
    pbkdf2 hmacSha256 pw salt 2 32 =
      xorBytes (hmacSha256 pw (salt ++ [0, 0, 0, 1]))
        (hmacSha256 pw (hmacSha256 pw (salt ++ [0, 0, 0, 1]))) := by
  rw [pbkdf2, show (32 + 31) / 32 = 1 from rfl, show List.range 1 = [0] from rfl]
  simp only [List.map_cons, List.map_nil, List.flatten_cons,
    List.flatten_nil, List.append_nil]
  rw [pbkdf2F, show (2 : Nat) - 1 = 1 from rfl, pbkdf2Go, pbkdf2Go, be4_one]
  rw [List.take_of_length_le]
  rw [xorBytes_length, hmacSha256_length, hmacSha256_length]
  omega

theorem derive_ok (hash info : List Nat) (h : 48 ≤ info.length) :
    derive hash info =
      .ok (pbkdf2 hmacSha256 hash ((info.drop 32).take 16) 2 32, (info.drop 16).take 16) := by
  rw [derive, if_pos (by omega : 32 ≤ info.length), if_pos h]

theorem derive_short (hash info : List Nat) (h : info.length < 48) :
    derive hash info = .error .slicePanic := by
  rw [derive]
  by_cases h32 : 32 ≤ info.length
  · rw [if_pos h32, if_neg (by omega)]
  · rw [if_neg h32]

/-! ## Pipeline helpers -/

theorem runMain_filter {J : Type} (decB : List Nat → List Nat → List Nat)
    (parse : List Nat → Option J) (hash info : List Nat) (records : List (List Nat))
    (h : 48 ≤ info.length) :
    runMain decB parse false hash info records =
      .ok (records.filterMap (fun d => (processRecord decB parse
        (pbkdf2 hmacSha256 hash ((info.drop 32).take 16) 2 32)
        ((info.drop 16).take 16) d).toOption)) := by
  rw [runMain, if_neg (by simp), derive_ok hash info h]

theorem runMain_drops_failure {J : Type} (decB : List Nat → List Nat → List Nat)
    (parse : List Nat → Option J) (hash info key iv : List Nat)
    (pre suf : List (List Nat)) (d : List Nat) (e : Error)
    (hder : derive hash info = .ok (key, iv))
    (hfail : processRecord decB parse key iv d = .error e) :
    runMain decB parse false hash info (pre ++ d :: suf) =
      runMain decB parse false hash info (pre ++ suf) := by
  rw [runMain, runMain, if_neg (by simp), if_neg (by simp), hder]
  simp only [List.filterMap_append, List.filterMap_cons, hfail]
  rfl

theorem decCall_overflow_bound (decB : List Nat → List Nat → List Nat)
    (key iv input : List Nat) (k : Nat) (out : List Nat)
    (h : decCall decB key iv input k = .ok (.BufferOverflow, out)) :
    k + 256 < (chunksBy 16 input).length := by
  have hlen := cbcDecBlocks_length (decB key) iv (chunksBy 16 input)
  simp only [decCall] at h
  split at h
  · exact absurd h (by simp)
  · split at h
    next hov => omega
    next hov =>
      split at h
      · exact absurd h (by simp)
      · rw [Except.ok.injEq, Prod.mk.injEq] at h
        exact absurd h.1 (by simp)

/-! ## The claims -/

/-- C1: for every identity whose info blob is at least 48 bytes, key
derivation returns the IV as bytes `[16,32)` of `info` taken directly, and
the 32-byte AES-256 key as PBKDF2 with the HMAC-SHA-256 PRF keyed by the
raw bytes of the identity's hash string, salt `info[32,48)`, and exactly 2
iterations — the key is spelled out as the two-iteration unrolling
`U₁ XOR PRF(U₁)` with `U₁ = PRF(salt ‖ INT(1))`, and has length 32. -/
theorem C1_derive_key_iv (hash info : List Nat) (h : 48 ≤ info.length) :
    derive hash info =
      .ok (pbkdf2 hmacSha256 hash ((info.drop 32).take 16) 2 32, (info.drop 16).take 16) ∧
    pbkdf2 hmacSha256 hash ((info.drop 32).take 16) 2 32 =
      xorBytes (hmacSha256 hash ((info.drop 32).take 16 ++ [0, 0, 0, 1]))
        (hmacSha256 hash (hmacSha256 hash ((info.drop 32).take 16 ++ [0, 0, 0, 1]))) ∧
    (pbkdf2 hmacSha256 hash ((info.drop 32).take 16) 2 32).length = 32 :=
  ⟨derive_ok hash info h, pbkdf2_hmac_two hash ((info.drop 32).take 16), by
    rw [pbkdf2_hmac_two, xorBytes_length, hmacSha256_length, hmacSha256_length]
    omega⟩

/-- C1 witness: the theorem applied at `hash = []`, `info = 48 zero bytes`. -/
theorem C1_witness :
    48 ≤ (List.replicate 48 0 : List Nat).length ∧
    (derive [] (List.replicate 48 0) =
      .ok (pbkdf2 hmacSha256 [] (((List.replicate 48 0 : List Nat).drop 32).take 16) 2 32,
        (((List.replicate 48 0 : List Nat).drop 16).take 16)) ∧
    pbkdf2 hmacSha256 [] (((List.replicate 48 0 : List Nat).drop 32).take 16) 2 32 =
      xorBytes (hmacSha256 [] ((((List.replicate 48 0 : List Nat)).drop 32).take 16 ++ [0, 0, 0, 1]))
        (hmacSha256 [] (hmacSha256 [] ((((List.replicate 48 0 : List Nat)).drop 32).take 16 ++ [0, 0, 0, 1]))) ∧
    (pbkdf2 hmacSha256 [] (((List.replicate 48 0 : List Nat).drop 32).take 16) 2 32).length = 32) :=
  ⟨by decide, C1_derive_key_iv [] (List.replicate 48 0) (by decide)⟩

/-- C2: for every key and IV (of block length) and every payload,
encrypting with PKCS-padded CBC under any block cipher whose decryption
inverts its encryption on 16-byte blocks, then running
`decrypt_enpass_data` with the same key and IV, returns exactly the
original bytes — in particular for the spec's payload lengths 0, 1, 15,
16, 17 and 4096.  The AES-256 block permutation is the abstract pair
`(encB, decB)`. -/
theorem C2_round_trip (encB decB : List Nat → List Nat → List Nat)
    (key iv msg : List Nat) (hiv : iv.length = 16)
    (henc : ∀ b, b.length = 16 → (encB key b).length = 16)
    (hdec : ∀ c, c.length = 16 → (decB key c).length = 16)
    (hinv : ∀ b, b.length = 16 → decB key (encB key b) = b) :
    decrypt_enpass_data decB (encryptPkcsCbc encB key iv msg) key iv = .ok msg := by
  rw [decrypt_eq_single decB _ key iv hiv hdec]
  exact decryptSingle_encrypt encB decB key iv msg hiv henc hinv

/-- C2 witness: the identity block cipher, `key = []`,
`iv = 16 zero bytes`, `msg = [1, 2, 3]`. -/
theorem C2_witness :
    (List.replicate 16 0 : List Nat).length = 16 ∧
    (∀ b : List Nat, b.length = 16 → ((fun (_ c : List Nat) => c) [] b).length = 16) ∧
    (∀ b : List Nat, b.length = 16 →
      (fun (_ c : List Nat) => c) [] ((fun (_ c : List Nat) => c) [] b) = b) ∧
    decrypt_enpass_data (fun (_ c : List Nat) => c)
      (encryptPkcsCbc (fun (_ c : List Nat) => c) [] (List.replicate 16 0) [1, 2, 3])
      [] (List.replicate 16 0) = .ok [1, 2, 3] :=
  ⟨by decide, fun _ h => h, fun _ _ => rfl,
    C2_round_trip (fun (_ c : List Nat) => c) (fun (_ c : List Nat) => c) []
      (List.replicate 16 0) [1, 2, 3] (by decide) (fun _ h => h) (fun _ h => h) (fun _ _ => rfl)⟩

/-- C3 counterexample: at `info = 47 zero bytes` the key-derivation block
panics (Rust index-out-of-range on the bounds-checked slice
`identity.info[32..48]`, main.rs:139) — it does not produce a
`MalformedIdentity` error value (the code has no such error), refuting the
claim that derivation with a short blob "fails with the MalformedIdentity
error" with "no panic". -/
theorem C3_counterexample :
    derive [] (List.replicate 47 0) = .error .slicePanic := rfl

/-- C3 amended: for every identity whose info blob is shorter than 48
bytes, key derivation fails — by a bounds-checked slice panic, not by
returning a `MalformedIdentity` error value — and no key material is
produced; the slice bounds check means nothing past the end of the blob
is ever read. -/
theorem C3_short_info_panics (hash info : List Nat) (h : info.length < 48) :
    derive hash info = .error .slicePanic :=
  derive_short hash info h

/-- C3 witness: the amended theorem applied at the empty info blob. -/
theorem C3_witness :
    ([] : List Nat).length < 48 ∧ derive [] [] = .error .slicePanic :=
  ⟨by decide, C3_short_info_panics [] [] (by decide)⟩

/-- C4: with the version-6 flag the pipeline fails with
`UnsupportedEnpassVersion` for every identity and every record list —
in particular the result does not depend on the block cipher, the parser,
or the identity, so no key derivation and no record decryption is
performed (even an identity whose info blob would make derivation panic
is never touched). -/
theorem C4_v6_rejected (J : Type) (decB : List Nat → List Nat → List Nat)
    (parse : List Nat → Option J) (hash info : List Nat) (records : List (List Nat)) :
    runMain decB parse true hash info records = .err .UnsupportedEnpassVersion := rfl

/-- C5: every payload whose length is zero or not a multiple of 16 is
rejected by `decrypt_enpass_data` with `InvalidLength` (the spec's
`InvalidCiphertextLength`), for every block cipher `decB` — the result is
the same constant for all of them, i.e. the cipher is never invoked. -/
theorem C5_invalid_length (decB : List Nat → List Nat → List Nat)
    (key iv input : List Nat) (h : input.length = 0 ∨ input.length % 16 ≠ 0) :
    decrypt_enpass_data decB input key iv = .error (.CryptoError .InvalidLength) := by
  rw [decrypt_enpass_data, show input.length / 4096 + 2 = input.length / 4096 + 1 + 1 from rfl,
    decLoop_invalid decB key iv input h]
  rfl

/-- C5 witness: a one-byte payload. -/
theorem C5_witness :
    (([1] : List Nat).length = 0 ∨ ([1] : List Nat).length % 16 ≠ 0) ∧
    decrypt_enpass_data (fun (_ _ : List Nat) => []) [1] [] [] =
      .error (.CryptoError .InvalidLength) :=
  ⟨by decide, C5_invalid_length (fun (_ _ : List Nat) => []) [] [] [1] (by decide)⟩

/-- C6 counterexample: a record whose padding is invalid makes
`decrypt_enpass_data` fail with `InvalidPadding` (the spec's
`PaddingError`) — but the pipeline of `main` returns `.ok []` for a run
whose only record is exactly such a payload: the per-record error is
swallowed by `.filter_map(|res| res.ok())` (main.rs:171-172) and never
surfaces to the caller, refuting the claim that the pipeline surfaces the
padding error. -/
theorem C6_counterexample :
    decrypt_enpass_data (fun (_ c : List Nat) => c) (List.replicate 16 0)
      (List.replicate 32 0) (List.replicate 16 0) = .error (.CryptoError .InvalidPadding) ∧
    runMain (fun (_ c : List Nat) => c) (fun bs => some bs) false [] (List.replicate 48 0)
      [List.replicate 16 0] = .ok [] := by
  refine ⟨rfl, ?_⟩
  rw [runMain_filter (fun (_ c : List Nat) => c) (fun bs => some bs) [] (List.replicate 48 0)
    [List.replicate 16 0] (by decide)]
  rfl

/-- C6 amended: `decrypt_enpass_data` does return `InvalidPadding` to its
immediate caller whenever the PKCS padding of the CBC-decrypted payload is
invalid; the pipeline of `main`, however, silently filters such records
out (see the counterexample), so the failure does not surface past the
per-record filter. -/
theorem C6_padding_error_surfaced (decB : List Nat → List Nat → List Nat)
    (key iv input : List Nat) (hiv : iv.length = 16)
    (hdec : ∀ c, c.length = 16 → (decB key c).length = 16)
    (hval : ¬(input.length = 0 ∨ input.length % 16 ≠ 0))
    (hpad : pkcsUnpad (cbcDecBlocks (decB key) iv (chunksBy 16 input)).flatten = none) :
    decrypt_enpass_data decB input key iv = .error (.CryptoError .InvalidPadding) := by
  rw [decrypt_eq_single decB input key iv hiv hdec, decryptSingle, if_neg hval, hpad]

/-- C6 witness: the identity block cipher on an all-zero block (the
decrypted padding byte is 0, which is invalid). -/
theorem C6_witness :
    (List.replicate 16 0 : List Nat).length = 16 ∧
    ¬((List.replicate 16 0 : List Nat).length = 0 ∨
      (List.replicate 16 0 : List Nat).length % 16 ≠ 0) ∧
    pkcsUnpad (cbcDecBlocks ((fun (_ c : List Nat) => c) []) (List.replicate 16 0)
      (chunksBy 16 (List.replicate 16 0))).flatten = none ∧
    decrypt_enpass_data (fun (_ c : List Nat) => c) (List.replicate 16 0) []
      (List.replicate 16 0) = .error (.CryptoError .InvalidPadding) :=
  ⟨by decide, by decide, by decide,
    C6_padding_error_surfaced (fun (_ c : List Nat) => c) [] (List.replicate 16 0)
      (List.replicate 16 0) (by decide) (fun _ h => h) (by decide) (by decide)⟩

/-- C7 counterexample: a run with one record that decrypts and parses
(the 16-zero-byte record, under a block cipher decrypting every block to
`0…0 1`) and one record that fails decryption (`[0]`, invalid length)
returns `.ok` with only the first record — the failed record is dropped by
`.filter_map(|res| res.ok())` (main.rs:171-172) with no per-record error
delivered to the caller, refuting the claim. -/
theorem C7_counterexample :
    runMain (fun (_ _ : List Nat) => List.replicate 15 0 ++ [1]) (fun bs => some bs) false []
      (List.replicate 48 0) [List.replicate 16 0, [0]] = .ok [List.replicate 15 0] ∧
    decrypt_enpass_data (fun (_ _ : List Nat) => List.replicate 15 0 ++ [1]) [0]
      (List.replicate 32 0) (List.replicate 16 0) = .error (.CryptoError .InvalidLength) := by
  refine ⟨?_, rfl⟩
  rw [runMain_filter (fun (_ _ : List Nat) => List.replicate 15 0 ++ [1]) (fun bs => some bs)
    [] (List.replicate 48 0) [List.replicate 16 0, [0]] (by decide)]
  rfl

/-- C7 amended: each record that fails decryption or parsing is silently
dropped from the pipeline output — removing a failing record from the
record list does not change the result at all, so no per-record error
result is delivered to the caller. -/
theorem C7_failed_records_dropped (J : Type) (decB : List Nat → List Nat → List Nat)
    (parse : List Nat → Option J) (hash info key iv : List Nat)
    (pre suf : List (List Nat)) (d : List Nat) (e : Error)
    (hder : derive hash info = .ok (key, iv))
    (hfail : processRecord decB parse key iv d = .error e) :
    runMain decB parse false hash info (pre ++ d :: suf) =
      runMain decB parse false hash info (pre ++ suf) :=
  runMain_drops_failure decB parse hash info key iv pre suf d e hder hfail

/-- C7 witness: dropping the failing record `[0]` from a one-record run
leaves the (empty) output unchanged. -/
theorem C7_witness :
    derive [] (List.replicate 48 0) =
      .ok (pbkdf2 hmacSha256 [] (((List.replicate 48 0 : List Nat).drop 32).take 16) 2 32,
        (((List.replicate 48 0 : List Nat).drop 16).take 16)) ∧
    processRecord (fun (_ _ : List Nat) => []) (fun bs => some bs)
      (pbkdf2 hmacSha256 [] (((List.replicate 48 0 : List Nat).drop 32).take 16) 2 32)
      ((((List.replicate 48 0 : List Nat).drop 16).take 16)) [0] =
        .error (.CryptoError .InvalidLength) ∧
    runMain (fun (_ _ : List Nat) => []) (fun bs => some bs) false [] (List.replicate 48 0)
        ([] ++ [0] :: []) =
      runMain (fun (_ _ : List Nat) => []) (fun bs => some bs) false [] (List.replicate 48 0)
        ([] ++ []) :=
  ⟨derive_ok [] (List.replicate 48 0) (by decide), rfl,
    C7_failed_records_dropped (List Nat) (fun (_ _ : List Nat) => []) (fun bs => some bs)
      [] (List.replicate 48 0) _ _ [] [] [0] (.CryptoError .InvalidLength)
      (derive_ok [] (List.replicate 48 0) (by decide)) rfl⟩

/-- C8: key derivation is deterministic — two calls with equal hash
strings and equal info blobs return identical key/IV material (the
embedding of the derivation block is a pure function of its inputs; the
code draws no randomness and reads no other state). -/
theorem C8_deterministic (hash₁ hash₂ info₁ info₂ : List Nat)
    (h1 : hash₁ = hash₂) (h2 : info₁ = info₂) :
    derive hash₁ info₁ = derive hash₂ info₂ := by
  rw [h1, h2]

/-- C8 witness: two identical calls. -/
theorem C8_witness :
    ([] : List Nat) = [] ∧ ([] : List Nat) = [] ∧ derive [] [] = derive [] [] :=
  ⟨rfl, rfl, C8_deterministic [] [] [] [] rfl rfl⟩

/-- C9: the chunked loop of `decrypt_enpass_data`, which drains the fixed
4096-byte write buffer on each `BufferOverflow`, computes exactly the
single-shot PKCS-padded CBC decryption `decryptSingle` of the whole
payload — same output bytes or same error — for every payload (smaller
and larger than 4096 bytes), every 16-byte IV, and every block cipher
producing 16-byte blocks. -/
theorem C9_chunked_eq_single (decB : List Nat → List Nat → List Nat)
    (input key iv : List Nat) (hiv : iv.length = 16)
    (hdec : ∀ c, c.length = 16 → (decB key c).length = 16) :
    decrypt_enpass_data decB input key iv = decryptSingle decB key iv input :=
  decrypt_eq_single decB input key iv hiv hdec

/-- C9 witness: the identity block cipher on a two-block payload. -/
theorem C9_witness :
    (List.replicate 16 0 : List Nat).length = 16 ∧
    decrypt_enpass_data (fun (_ c : List Nat) => c) (List.replicate 32 0) []
        (List.replicate 16 0) =
      decryptSingle (fun (_ c : List Nat) => c) [] (List.replicate 16 0)
        (List.replicate 32 0) :=
  ⟨by decide, C9_chunked_eq_single (fun (_ c : List Nat) => c) (List.replicate 32 0) []
    (List.replicate 16 0) (by decide) (fun _ h => h)⟩

/-- C10: the read-decrypt-drain loop terminates on every finite payload:
each `BufferOverflow` iteration makes strict progress (256 more blocks of
the input are consumed, so an overflow can only be reported while more
than 256 blocks remain), and a step budget of `input.length / 4096 + 2`
iterations always suffices for the loop to exit — on `BufferUnderflow`
with the accumulated bytes or on a cipher error. -/
theorem C10_loop_terminates (decB : List Nat → List Nat → List Nat)
    (key iv input : List Nat) (fuel : Nat) (h : input.length / 4096 + 2 ≤ fuel) :
    (∀ k out, decCall decB key iv input k = .ok (.BufferOverflow, out) →
      k + 256 < (chunksBy 16 input).length) ∧
    ∃ r, decLoop decB key iv input fuel 0 [] = some r := by
  refine ⟨fun k out hk => decCall_overflow_bound decB key iv input k out hk, ?_⟩
  have hb : ((chunksBy 16 input).length - 0) / 256 + 1 ≤ fuel := by
    rw [chunksBy_length16, Nat.sub_zero, Nat.div_div_eq_div_mul,
      show (16 * 256 : Nat) = 4096 from rfl]
    omega
  exact Option.isSome_iff_exists.mp (decLoop_isSome decB key iv input fuel 0 [] hb)

/-- C10 witness: the loop on the empty payload with the minimal budget. -/
theorem C10_witness :
    ([] : List Nat).length / 4096 + 2 ≤ 2 ∧
    ((∀ k out, decCall (fun (_ c : List Nat) => c) [] [] [] k = .ok (.BufferOverflow, out) →
      k + 256 < (chunksBy 16 ([] : List Nat)).length) ∧
    ∃ r, decLoop (fun (_ c : List Nat) => c) [] [] [] 2 0 [] = some r) :=
  ⟨by decide, C10_loop_terminates (fun (_ c : List Nat) => c) [] [] [] 2 (by decide)⟩

end Enpass
